import Mathlib

/-!
Verification of the PirlantaGPT semantic-search pipeline.

Shallow embedding of the repository's Python sources:
  * `create_chunks.py`  — chapter chunker (`split_into_chunks`, `process_toc_entries`)
  * `embed_chunks.py`   — incremental embedding sync (`main`)
  * `app.py`/`search.py` — query handling (`search_faiss`, `get_chunks_from_db`,
    `handle_query`) and chapter reassembly (`merge_chunks_by_chapter`)

Modelling conventions:
  * Machine reals (embedding coordinates, L2 distances) are modelled by `Int`;
    every property checked here is about order and structure, not numerics.
  * Python's dynamically-typed values that flow through the JSON mapping file
    are modelled by `PyVal` (ints and strings), because `embed_chunks.py`
    compares `str(chunk_id)` against the mapping's integer values and Python's
    `==` across those two types is always `False`.
  * The JSON mapping's keys are the decimal strings `str(vector_position)` of
    distinct non-negative integers; since `str` is injective there, the model
    keys the association list by the position itself (`Nat`), and a lookup with
    a negative search label (FAISS's `-1` padding) compares the `Int` label
    against those `Nat` keys and never matches — exactly as the string key
    `"-1"` never occurs in the JSON object.
  * Fallible calls (OpenAI embedding) are `Option`-valued; an uncaught Python
    exception in a pipeline is `Option.none` of the whole pipeline.
-/

/-- A dynamically-typed Python value as it appears in the JSON
`id_to_chunk_mapping.json` round trip: an int or a string.  The derived
decidable equality matches Python `==` on these values: two ints compare by
value, two strings by value, and an int never equals a string. -/
inductive PyVal where
  | int : Int → PyVal
  | str : String → PyVal
deriving DecidableEq, Repr

/-! ### Python string primitives used by the sources -/

/-- Accumulator worker for `pySplit`: walks the character list, splitting on
whitespace runs and dropping empty pieces, exactly as Python `str.split()`
with no argument does.  `acc` holds the current word's characters reversed. -/
def splitWsAux : List Char → List Char → List String
  | [], acc => if acc = [] then [] else [String.mk acc.reverse]
  | c :: cs, acc =>
    if c.isWhitespace then
      if acc = [] then splitWsAux cs [] else String.mk acc.reverse :: splitWsAux cs []
    else
      splitWsAux cs (c :: acc)

/-- Python `text.split()` (no separator argument): split on runs of
whitespace, discarding empty strings. -/
def pySplit (s : String) : List String :=
  splitWsAux s.data []

/-- Python `sep.join(pieces)`. -/
def pyJoin (sep : String) : List String → String
  | [] => ""
  | [w] => w
  | w :: ws => w ++ sep ++ pyJoin sep ws

/-- Python `s[:n]` on a string: the first `n` code points. -/
def strTake (n : Nat) (s : String) : String :=
  String.mk (s.data.take n)

/-! ### Stable sort by an integer key

Models both Python's `sorted(xs, key=...)` (a stable sort) and the ordering of
FAISS exhaustive search results (ascending distance, ties by lower position).
`sortByKey` is a stable insertion sort: an element is inserted before the
first element of the sorted tail whose key is not smaller, so elements with
equal keys keep their original relative order. -/

def insertSorted {α : Type} (key : α → Int) (x : α) : List α → List α
  | [] => [x]
  | y :: ys => if key y < key x then y :: insertSorted key x ys else x :: y :: ys

def sortByKey {α : Type} (key : α → Int) : List α → List α
  | [] => []
  | x :: xs => insertSorted key x (sortByKey key xs)

/-! ### `create_chunks.py` -/

/-- The loop of `split_into_chunks` (`create_chunks.py` lines 51-58):
`while start < num_words: chunks.append(" ".join(words[start:start+chunk_size]));
start += chunk_size`.  Stated on the suffix `words[start:]`, the loop emits
`" ".join(words[:chunk_size])` and recurses on `words[chunk_size:]`.  The
cons pattern makes `take`/`drop` explicit: for `chunk_size ≥ 1` (the source
always passes 800), `(w :: ws).take chunk_size = w :: ws.take (chunk_size-1)`
and `(w :: ws).drop chunk_size = ws.drop (chunk_size-1)`.  (For
`chunk_size = 0` the Python loop does not terminate; that case is never
exercised by the source and all theorems assume `1 ≤ chunk_size`.) -/
def chunkLoop (chunk_size : Nat) : List String → List String
  | [] => []
  | w :: ws =>
    pyJoin " " (w :: ws.take (chunk_size - 1)) :: chunkLoop chunk_size (ws.drop (chunk_size - 1))
termination_by l => l.length
decreasing_by
  simp only [List.length_cons, List.length_drop]
  omega

/-- `split_into_chunks(chapter_text, max_single, chunk_size)`
(`create_chunks.py` lines 39-59): if the text has at most `max_single` words
return it whole as one chunk, otherwise break it into `chunk_size`-word
segments rejoined with single spaces. -/
def split_into_chunks (chapter_text : String) (max_single chunk_size : Nat) : List String :=
  let words := pySplit chapter_text
  let num_words := words.length
  if num_words ≤ max_single then [chapter_text]
  else chunkLoop chunk_size words

/-- A row of the `chunks` table as written by `process_toc_entries`
(`create_chunks.py` lines 103-109); the autoincrement `id` is assigned by the
store and omitted here. -/
structure Chunk where
  book_title : String
  chapter_title : String
  local_index : Nat
  text : String
deriving DecidableEq, Repr

/-- The chunk rows `process_toc_entries` produces for one TOC entry
(`create_chunks.py` lines 93-109): skip the entry if the extracted chapter
text is empty (`if not chapter_text: continue`), otherwise chunk it with
`max_single=1000, chunk_size=800` and store each chunk with its enumeration
index and the chapter title truncated to 200 characters
(`chapter_title[:200]`). -/
def chunksForEntry (book_title chapter_title chapter_text : String) : List Chunk :=
  if chapter_text = "" then []
  else
    ((split_into_chunks chapter_text 1000 800).enum).map
      (fun p => ⟨book_title, strTake 200 chapter_title, p.1, p.2⟩)

/-! ### `embed_chunks.py` -/

/-- An embedding vector (reals modelled by `Int`). -/
abbrev Vec := List Int

/-- A `(id, text)` row from `SELECT id, text FROM chunks`
(`embed_chunks.py` lines 27-37). -/
structure ChunkRow where
  id : Int
  text : String
deriving DecidableEq, Repr

/-- The persistent state of the embedding cache: the FAISS index (an ordered
list of vectors; `ntotal` is its length) and the JSON mapping from vector
position to chunk id.  The mapping is an insertion-ordered association list,
as a Python dict / JSON object is; keys are vector positions (their JSON form
is the decimal string `str(position)`), values are the dynamically-typed
chunk ids (`PyVal.int` as written by the sync pass). -/
structure SyncState where
  index : List Vec
  mapping : List (Nat × PyVal)
deriving DecidableEq, Repr

/-- Python dict assignment `d[k] = v`: overwrite in place if the key is
present (dicts preserve insertion order), else append a new entry. -/
def dictInsert (d : List (Nat × PyVal)) (k : Nat) (v : PyVal) : List (Nat × PyVal) :=
  if d.any (fun p => p.1 = k) then
    d.map (fun p => if p.1 = k then (k, v) else p)
  else
    d ++ [(k, v)]

/-- Step 4 of `embed_chunks.main` (lines 108-109):
`embedded_chunk_ids = set(chunk_mapping.values())` and
`unembedded_chunks = [(id, text) for id, text in chunks if str(chunk_id) not in
embedded_chunk_ids]`.  Note the source tests the *string* `str(chunk_id)`
for membership in a set of *integer* values, faithfully modelled by a
`PyVal.str` membership test against `PyVal.int` elements. -/
def unembeddedChunks (store : List ChunkRow) (mapping : List (Nat × PyVal)) : List ChunkRow :=
  let embedded_chunk_ids := mapping.map (fun p => p.2)
  store.filter (fun c => !(decide (PyVal.str (toString c.id) ∈ embedded_chunk_ids)))

/-- One iteration of the embedding loop (`embed_chunks.py` lines 113-120):
embed the chunk's text; on success append the vector to the index and record
`chunk_mapping[str(index.ntotal - 1)] = chunk_id`; on an exception print and
`continue` (state unchanged). -/
def syncStep (embed : String → Option Vec) (st : SyncState) (c : ChunkRow) : SyncState :=
  match embed c.text with
  | some v =>
    let index := st.index ++ [v]
    ⟨index, dictInsert st.mapping (index.length - 1) (PyVal.int c.id)⟩
  | none => st

/-- One full sync pass, `embed_chunks.main` (lines 95-124): select the chunks
not yet recorded in the mapping, then embed each in turn.  (Loading and
saving the JSON mapping and the FAISS index are identity round trips on this
state and are not modelled.) -/
def syncPass (embed : String → Option Vec) (store : List ChunkRow) (st : SyncState) : SyncState :=
  (unembeddedChunks store st.mapping).foldl (syncStep embed) st

/-! ### `app.py` / `search.py`: the query engine -/

/-- A full row of the `chunks` table as returned by
`SELECT id, book_title, chapter_title, local_index, text FROM chunks`. -/
structure DbRow where
  id : Int
  book_title : String
  chapter_title : String
  local_index : Int
  text : String
deriving DecidableEq, Repr

/-- Squared Euclidean (L2) distance, the metric of `faiss.IndexFlatL2`. -/
def sqDist (u v : Vec) : Int :=
  (List.zipWith (fun a b => (a - b) * (a - b)) u v).foldl (· + ·) 0

/-- The distance FAISS reports for a padded (missing) slot when the index
holds fewer than `k` vectors; stands for `FLT_MAX`. -/
def padDist : Int := 2 ^ 128

/-- `search_faiss(index, query_vector, top_k)` (`app.py` lines 52-59,
`search.py` lines 50-57), together with the behaviour of
`faiss.IndexFlatL2.search`: score every stored vector by squared L2 distance
to the query, return the `top_k` positions ordered by ascending distance
(ties by lower position, which the stable `sortByKey` gives), and pad the
output to exactly `top_k` entries with the sentinel label `-1` when the index
holds fewer than `top_k` vectors.  Returns `(vector_ids, distances)` as the
Python function does. -/
def searchFaiss (index : List Vec) (query_vector : Vec) (top_k : Nat) :
    List Int × List Int :=
  let cands := index.enum.map (fun p => ((p.1 : Int), sqDist p.2 query_vector))
  let top := (sortByKey (fun p => p.2) cands).take top_k
  let padded := top ++ List.replicate (top_k - top.length) ((-1 : Int), padDist)
  (padded.map (fun p => p.1), padded.map (fun p => p.2))

/-- Lookup `chunk_mapping[str(vector_id)]` as an `Option`: the JSON mapping's
keys are the decimal strings of the vector positions, so the lookup matches
exactly when the (possibly negative) search label equals one of the stored
positions. -/
def mappingLookup (mapping : List (Nat × PyVal)) (vector_id : Int) : Option PyVal :=
  (mapping.find? (fun p => (p.1 : Int) = vector_id)).map (fun p => p.2)

/-- Step 4 of `handle_query` (`app.py` line 105, `search.py` line 139):
`chunk_ids = [chunk_mapping[str(vector_id)] for vector_id in vector_ids]`.
A Python dict subscript with an absent key raises `KeyError`, which aborts
the whole list comprehension (and the request): hence `none` as soon as any
position has no mapping entry. -/
def resolveIds (mapping : List (Nat × PyVal)) : List Int → Option (List PyVal)
  | [] => some []
  | v :: vs =>
    match mappingLookup mapping v with
    | some cid => (resolveIds mapping vs).map (fun rest => cid :: rest)
    | none => none

/-- `get_chunks_from_db(db_path, chunk_ids)` (`app.py` lines 62-76):
`SELECT ... FROM chunks WHERE id IN (...)`.  SQLite probes the integer
primary key and returns the matching rows in table (ascending-id) order —
the order of `store`, which models the table in insertion order — each
matching row exactly once regardless of duplicates in `chunk_ids`. -/
def get_chunks_from_db (store : List DbRow) (chunk_ids : List PyVal) : List DbRow :=
  store.filter (fun r => decide (PyVal.int r.id ∈ chunk_ids))

/-- Steps 3-5 of `handle_query` (`app.py` lines 99-120) after the query has
been embedded, with the neighbour count `k` as a parameter: FAISS search,
mapping lookup for every returned position, then the database fetch.  The
final JSON formatting (lines 112-120) is a field-for-field copy of the rows
in order and is not modelled.  `none` models an uncaught `KeyError` from an
absent mapping position. -/
def handleQueryCore (index : List Vec) (mapping : List (Nat × PyVal))
    (store : List DbRow) (query_vector : Vec) (k : Nat) : Option (List DbRow) :=
  let vector_ids := (searchFaiss index query_vector k).1
  match resolveIds mapping vector_ids with
  | some chunk_ids => some (get_chunks_from_db store chunk_ids)
  | none => none

/-- `handle_query` (`app.py` lines 80-123) fixes `top_k = 5` (line 101). -/
def handleQuery (index : List Vec) (mapping : List (Nat × PyVal))
    (store : List DbRow) (query_vector : Vec) : Option (List DbRow) :=
  handleQueryCore index mapping store query_vector 5

/-! ### `search.py`: chapter reassembly -/

/-- The output record of `merge_chunks_by_chapter`. -/
structure MergedChapter where
  book_title : String
  chapter_title : String
  text : String
deriving DecidableEq, Repr

/-- The dict key `(book_title, chapter_title)` (`search.py` line 102). -/
def chapterKey (r : DbRow) : String × String :=
  (r.book_title, r.chapter_title)

/-- Adding one chunk to `chapter_map` (`search.py` lines 102-105):
`if key not in chapter_map: chapter_map[key] = []` then
`chapter_map[key].append((local_index, text))`.  Python dicts preserve
insertion order, so the association list appends a fresh key at the end and
extends an existing key's list in place. -/
def addToChapterMap (m : List ((String × String) × List (Int × String)))
    (k : String × String) (v : Int × String) :
    List ((String × String) × List (Int × String)) :=
  if m.any (fun p => p.1 = k) then
    m.map (fun p => if p.1 = k then (p.1, p.2 ++ [v]) else p)
  else
    m ++ [(k, [v])]

/-- The first loop of `merge_chunks_by_chapter` (`search.py` lines 100-105),
building `chapter_map` from the fetched rows in order. -/
def buildChapterMap (chunks : List DbRow) :
    List ((String × String) × List (Int × String)) :=
  chunks.foldl (fun m r => addToChapterMap m (chapterKey r) (r.local_index, r.text)) []

/-- `merge_chunks_by_chapter(chunks)` (`search.py` lines 95-118): group the
rows by `(book_title, chapter_title)`, then for each chapter (in dict
insertion order) sort its `(local_index, text)` pairs by `local_index` with
Python's stable `sorted` and join the texts with single spaces. -/
def mergeChunksByChapter (chunks : List DbRow) : List MergedChapter :=
  (buildChapterMap chunks).map (fun p =>
    ⟨p.1.1, p.1.2, pyJoin " " ((sortByKey (fun q => q.1) p.2).map (fun q => q.2))⟩)

/-! ### Spec-side definitions

These follow the specification's words and are compared against the
definitions above, which are translated from the source. -/

/-- Spec side: "partition the word sequence into consecutive windows of
`chunk_size` words (last window may be shorter)".  For `chunk_size ≥ 1`,
`(w :: ws).take chunk_size = w :: ws.take (chunk_size - 1)` and likewise for
`drop`, so each emitted window is the first `chunk_size` words of the
remaining sequence. -/
def specWindows (chunk_size : Nat) : List String → List (List String)
  | [] => []
  | w :: ws => (w :: ws.take (chunk_size - 1)) :: specWindows chunk_size (ws.drop (chunk_size - 1))
termination_by l => l.length
decreasing_by
  simp only [List.length_cons, List.length_drop]
  omega

/-- Spec side: the window sizes produced by chunking `n` words into
`chunk_size`-word windows — `min chunk_size n` words, then the sizes for the
remaining `n - chunk_size` words (written `n - 1 - (chunk_size - 1)` so the
recursion terminates for every `chunk_size`; the two agree for
`chunk_size ≥ 1`). -/
def sizesList (chunk_size : Nat) (n : Nat) : List Nat :=
  if n = 0 then [] else min chunk_size n :: sizesList chunk_size (n - 1 - (chunk_size - 1))
termination_by n
decreasing_by omega

/-- Spec side: first-occurrence deduplication of the chapter keys, the order
a Python dict's keys end up in. -/
def dedupFirst : List (String × String) → List (String × String)
  | [] => []
  | k :: ks => k :: dedupFirst (ks.filter (fun x => !(decide (x = k))))
termination_by l => l.length
decreasing_by
  simp only [List.length_cons]
  exact Nat.lt_succ_of_le (List.length_filter_le _ _)

/-- Spec side: the `(local_index, text)` pairs of the rows of one chapter, in
fetch order. -/
def entriesFor (chunks : List DbRow) (k : String × String) : List (Int × String) :=
  (chunks.filter (fun r => decide (chapterKey r = k))).map (fun r => (r.local_index, r.text))

/-- Spec side, following "`expand` on a set of matched chunks returns one
`MergedChapter` per distinct (book, chapter) pair, with text equal to the
space-joined, `local_index`-sorted concatenation of that chapter's chunks":
one record per distinct chapter key in first-occurrence order, whose text
joins that chapter's texts sorted stably by ascending `local_index`. -/
def mergedChaptersSpec (chunks : List DbRow) : List MergedChapter :=
  (dedupFirst (chunks.map chapterKey)).map (fun k =>
    ⟨k.1, k.2, pyJoin " " ((sortByKey (fun q => q.1) (entriesFor chunks k)).map (fun q => q.2))⟩)

/-! ### Helper lemmas -/

theorem resolveIds_eq_none_iff (m : List (Nat × PyVal)) (vs : List Int) :
    resolveIds m vs = none ↔ ∃ v ∈ vs, mappingLookup m v = none := by
  induction vs with
  | nil => simp [resolveIds]
  | cons v vs ih =>
    simp only [resolveIds]
    cases h : mappingLookup m v with
    | none => simp [h]
    | some cid => simp [h, ih]

theorem strTake_length_le (n : Nat) (s : String) : (strTake n s).length ≤ n := by
  have h : (strTake n s).length = (s.data.take n).length := rfl
  rw [h, List.length_take]
  exact Nat.min_le_left _ _

theorem handleQueryCore_eq_none_iff (index : List Vec) (mapping : List (Nat × PyVal))
    (store : List DbRow) (query_vector : Vec) (k : Nat) :
    handleQueryCore index mapping store query_vector k = none ↔
      resolveIds mapping ((searchFaiss index query_vector k).1) = none := by
  unfold handleQueryCore
  cases h : resolveIds mapping ((searchFaiss index query_vector k).1) <;> simp [h]

/-! ### Claims -/

/-- C1: the sync operation is claimed idempotent — a second pass with no new
chunks should perform zero embeddings and leave the index size and the
mapping unchanged.  The code violates this: `embed_chunks.py` line 109 tests
the *string* `str(chunk_id)` for membership in the set of the mapping's
*integer* values, which is always false in Python, so every chunk is
re-embedded on every pass.  On a store holding the single chunk `(1, "t")`
with a total embedding function, the first pass from the empty state yields
index size 1 and mapping `{"0": 1}`, and the second pass grows the index to
size 2 and the mapping to `{"0": 1, "1": 1}`. -/
theorem C1_second_sync_pass_reembeds_everything :
    (syncPass (fun _ => some [0]) [(⟨1, "t"⟩ : ChunkRow)] ⟨[], []⟩).index.length = 1 ∧
    (syncPass (fun _ => some [0]) [(⟨1, "t"⟩ : ChunkRow)] ⟨[], []⟩).mapping
      = [(0, PyVal.int 1)] ∧
    (syncPass (fun _ => some [0]) [(⟨1, "t"⟩ : ChunkRow)]
      (syncPass (fun _ => some [0]) [(⟨1, "t"⟩ : ChunkRow)] ⟨[], []⟩)).index.length = 2 ∧
    (syncPass (fun _ => some [0]) [(⟨1, "t"⟩ : ChunkRow)]
      (syncPass (fun _ => some [0]) [(⟨1, "t"⟩ : ChunkRow)] ⟨[], []⟩)).mapping
      = [(0, PyVal.int 1), (1, PyVal.int 1)] := by
  decide

/-- C2: each chunk is claimed to be mapped to at most one vector position
after every sync pass.  Because the skip test of `embed_chunks.py` line 109
compares `str(chunk_id)` against integer mapping values (always false), a
second pass over the same one-chunk store maps chunk id 1 at the two distinct
positions 0 and 1. -/
theorem C2_chunk_mapped_at_two_positions :
    (syncPass (fun _ => some [0]) [(⟨1, "t"⟩ : ChunkRow)]
      (syncPass (fun _ => some [0]) [(⟨1, "t"⟩ : ChunkRow)] ⟨[], []⟩)).mapping
      = [(0, PyVal.int 1), (1, PyVal.int 1)] ∧
    (0 : Nat) ≠ 1 := by
  decide

/-- C3 counterexample: the claim says a vector position returned by the
search with no mapping entry is skipped and the query still completes.  In
the code (`app.py` line 105) the lookup `chunk_mapping[str(vector_id)]` is
unguarded: on an index holding one vector, the FAISS search for the fixed
`top_k = 5` returns the sentinel positions `-1`, whose lookup raises
`KeyError` and aborts the query (`none`), even though the mapping and store
are perfectly consistent. -/
theorem C3_counterexample_unmapped_position_aborts :
    (searchFaiss [[0]] [0] 5).1 = [0, -1, -1, -1, -1] ∧
    handleQuery [[0]] [(0, PyVal.int 1)] [(⟨1, "b", "c", 0, "t"⟩ : DbRow)] [0] = none := by
  decide

/-- C3 (amended): a vector position returned by the k-nearest-neighbour
search that has no entry in the position-to-chunk-id mapping is not skipped —
its unguarded dict lookup aborts the whole query; the query completes exactly
when every returned position has a mapping entry. -/
theorem C3_query_fails_iff_some_position_unmapped
    (index : List Vec) (mapping : List (Nat × PyVal)) (store : List DbRow)
    (query_vector : Vec) (k : Nat) :
    handleQueryCore index mapping store query_vector k = none ↔
      ∃ v ∈ (searchFaiss index query_vector k).1, mappingLookup mapping v = none := by
  rw [handleQueryCore_eq_none_iff, resolveIds_eq_none_iff]

/-- C6: a text whose word count is at most `max_single` is returned whole as
a single chunk equal to the input (`create_chunks.py` lines 45-49). -/
theorem C6_small_text_is_one_chunk (text : String) (max_single chunk_size : Nat)
    (h : (pySplit text).length ≤ max_single) :
    split_into_chunks text max_single chunk_size = [text] := by
  unfold split_into_chunks
  simp [h]

/-- C6 witness: "hello world" has 2 ≤ 1000 words and is returned whole. -/
theorem C6_small_text_is_one_chunk_witness :
    (pySplit "hello world").length ≤ 1000 ∧
    split_into_chunks "hello world" 1000 800 = ["hello world"] :=
  ⟨by decide, C6_small_text_is_one_chunk "hello world" 1000 800 (by decide)⟩

/-- C7 counterexample: the claim says the chunker returns an empty list of
chunks for the empty input text.  In the code the empty text has word count
0 ≤ `max_single`, so `split_into_chunks` (`create_chunks.py` line 48-49)
returns `[""]` — one chunk holding the empty text — not `[]`. -/
theorem C7_counterexample_empty_text_gives_one_chunk :
    split_into_chunks "" 1000 800 = [""] ∧
    split_into_chunks "" 1000 800 ≠ ([] : List String) := by
  decide

/-- C7 (amended): `split_into_chunks` itself returns the empty text as one
chunk `[""]`; it is the caller `process_toc_entries` (`create_chunks.py`
lines 97-98, `if not chapter_text: continue`) that skips empty chapter
texts, so a TOC entry whose extracted text is empty produces no chunks. -/
theorem C7_empty_entry_produces_no_chunks (book_title chapter_title : String) :
    chunksForEntry book_title chapter_title "" = [] ∧
    split_into_chunks "" 1000 800 = [""] :=
  ⟨rfl, by decide⟩

/-- C10: every chunk written by `process_toc_entries` stores the chapter
title truncated to its first 200 characters (`create_chunks.py` line 105,
`chapter_title[:200]`), so every persisted `chapter_title` has at most 200
characters and a longer TOC title is stored only in truncated form. -/
theorem C10_chapter_title_truncated_to_200 (book_title chapter_title text : String)
    (ch : Chunk) (h : ch ∈ chunksForEntry book_title chapter_title text) :
    ch.chapter_title = strTake 200 chapter_title ∧ ch.chapter_title.length ≤ 200 := by
  unfold chunksForEntry at h
  by_cases he : text = ""
  · simp [he] at h
  · simp only [if_neg he, List.mem_map] at h
    obtain ⟨p, -, rfl⟩ := h
    exact ⟨rfl, strTake_length_le 200 chapter_title⟩

/-- C10 witness: a one-word chapter text yields one chunk whose stored
chapter title is the truncation of the TOC title. -/
theorem C10_chapter_title_truncated_to_200_witness :
    (⟨"b", strTake 200 "c", 0, "x"⟩ : Chunk) ∈ chunksForEntry "b" "c" "x" ∧
    ((⟨"b", strTake 200 "c", 0, "x"⟩ : Chunk).chapter_title = strTake 200 "c" ∧
      (⟨"b", strTake 200 "c", 0, "x"⟩ : Chunk).chapter_title.length ≤ 200) :=
  ⟨by decide, C10_chapter_title_truncated_to_200 "b" "c" "x" _ (by decide)⟩

/-! ### C4: result count and order -/

theorem insertSorted_length {α : Type} (key : α → Int) (x : α) (l : List α) :
    (insertSorted key x l).length = l.length + 1 := by
  induction l with
  | nil => rfl
  | cons y ys ih =>
    simp only [insertSorted]
    by_cases h : key y < key x
    · simp [h, ih]
    · simp [h]

theorem sortByKey_length {α : Type} (key : α → Int) (l : List α) :
    (sortByKey key l).length = l.length := by
  induction l with
  | nil => rfl
  | cons x xs ih => simp [sortByKey, insertSorted_length, ih]

theorem searchFaiss_fst_length (index : List Vec) (query_vector : Vec) (k : Nat) :
    ((searchFaiss index query_vector k).1).length = k := by
  simp only [searchFaiss, List.length_map, List.length_append, List.length_replicate,
    List.length_take, sortByKey_length, List.length_map, List.enum_length]
  omega

theorem resolveIds_length (m : List (Nat × PyVal)) (vs : List Int) (ids : List PyVal)
    (h : resolveIds m vs = some ids) : ids.length = vs.length := by
  induction vs generalizing ids with
  | nil => simp only [resolveIds, Option.some.injEq] at h; simp [← h]
  | cons v vs ih =>
    simp only [resolveIds] at h
    cases hv : mappingLookup m v with
    | none => rw [hv] at h; cases h
    | some cid =>
      rw [hv] at h
      cases hr : resolveIds m vs with
      | none => rw [hr] at h; cases h
      | some rest =>
        rw [hr] at h
        have hids : cid :: rest = ids := by simpa using h
        simp [← hids, ih rest hr]

theorem length_filter_mem_le (ids : List PyVal) (store : List DbRow)
    (hnd : (store.map (fun r => r.id)).Nodup) :
    (store.filter (fun r => decide (PyVal.int r.id ∈ ids))).length ≤ ids.length := by
  have hinj : Function.Injective PyVal.int := fun a b h => by injection h
  have hnd2 : (store.map (fun r => PyVal.int r.id)).Nodup := by
    have h2 := List.Nodup.map hinj hnd
    simpa [List.map_map, Function.comp] using h2
  have hsub : (store.filter (fun r => decide (PyVal.int r.id ∈ ids))).Sublist store :=
    List.filter_sublist store
  have hndf :
      ((store.filter (fun r => decide (PyVal.int r.id ∈ ids))).map
        (fun r => PyVal.int r.id)).Nodup :=
    List.Nodup.sublist (List.Sublist.map _ hsub) hnd2
  have hmem : ∀ x ∈ (store.filter (fun r => decide (PyVal.int r.id ∈ ids))).map
      (fun r => PyVal.int r.id), x ∈ ids := by
    intro x hx
    obtain ⟨r, hr, rfl⟩ := List.mem_map.mp hx
    have hp := (List.mem_filter.mp hr).2
    simpa using hp
  have hle : ((store.filter (fun r => decide (PyVal.int r.id ∈ ids))).map
      (fun r => PyVal.int r.id)).length ≤ ids.length := by
    calc ((store.filter (fun r => decide (PyVal.int r.id ∈ ids))).map
          (fun r => PyVal.int r.id)).length
        = ((store.filter (fun r => decide (PyVal.int r.id ∈ ids))).map
            (fun r => PyVal.int r.id)).toFinset.card :=
          (List.toFinset_card_of_nodup hndf).symm
      _ ≤ ids.toFinset.card := by
          apply Finset.card_le_card
          intro x hx
          exact List.mem_toFinset.mpr (hmem x (List.mem_toFinset.mp hx))
      _ ≤ ids.length := List.toFinset_card_le ids
  simpa using hle

/-- A concrete five-vector index: positions 0-3 hold vectors at increasing
distance from the query `[0]`, position 4 holds the closest vector of all. -/
def exIndex : List Vec := [[10], [20], [30], [40], [0]]

/-- Position-to-chunk-id mapping for `exIndex`: position `p` holds chunk
`p + 1`. -/
def exMapping : List (Nat × PyVal) :=
  [(0, PyVal.int 1), (1, PyVal.int 2), (2, PyVal.int 3), (3, PyVal.int 4), (4, PyVal.int 5)]

/-- The chunks table backing `exIndex`/`exMapping`, in ascending-id order. -/
def exStore : List DbRow :=
  [⟨1, "B", "C", 0, "t1"⟩, ⟨2, "B", "C", 1, "t2"⟩, ⟨3, "B", "C", 2, "t3"⟩,
   ⟨4, "B", "C", 3, "t4"⟩, ⟨5, "B", "C2", 0, "t5"⟩]

/-- C4 counterexample: the claim says query results are ordered by
non-decreasing distance to the query vector.  The code never sorts the
fetched rows: `get_chunks_from_db` (`app.py` lines 62-76) returns them in
table order and `handle_query` keeps that order.  For the query `[0]` the
nearest vector is at position 4 (chunk 5), yet the results come back as
chunks 1,2,3,4,5 in id order, so the last result (chunk 5, distance 0) is
strictly closer to the query than the one before it (chunk 4, its vector at
position 3, distance 1600): the distances along the result list are
100, 400, 900, 1600, 0 — not non-decreasing. -/
theorem C4_counterexample_results_not_distance_ordered :
    handleQuery exIndex exMapping exStore [0] = some exStore ∧
    mappingLookup exMapping 3 = some (PyVal.int 4) ∧
    mappingLookup exMapping 4 = some (PyVal.int 5) ∧
    sqDist (exIndex.getD 4 []) [0] < sqDist (exIndex.getD 3 []) [0] := by
  decide

/-- C4 (amended): when the query completes, it returns at most `k` results
(each matched chunk at most once, assuming the store's primary-key ids are
distinct), and the results appear as a sublist of the store — database row
order — rather than sorted by distance. -/
theorem C4_results_at_most_k_in_store_order (index : List Vec)
    (mapping : List (Nat × PyVal)) (store : List DbRow) (query_vector : Vec)
    (k : Nat) (results : List DbRow)
    (hnd : (store.map (fun r => r.id)).Nodup)
    (h : handleQueryCore index mapping store query_vector k = some results) :
    results.Sublist store ∧ results.length ≤ k := by
  simp only [handleQueryCore] at h
  cases hres : resolveIds mapping ((searchFaiss index query_vector k).1) with
  | none => rw [hres] at h; cases h
  | some ids =>
    rw [hres] at h
    simp only [Option.some.injEq] at h
    subst h
    refine ⟨List.filter_sublist store, ?_⟩
    have h1 : ids.length = k := by
      rw [resolveIds_length mapping _ ids hres, searchFaiss_fst_length]
    calc (get_chunks_from_db store ids).length ≤ ids.length :=
          length_filter_mem_le ids store hnd
      _ = k := h1

/-- C4 witness: on the concrete example, the query completes with 5 results
forming a sublist of the store of length at most 5. -/
theorem C4_results_at_most_k_in_store_order_witness :
    (exStore.map (fun r => r.id)).Nodup ∧
    handleQueryCore exIndex exMapping exStore [0] 5 = some exStore ∧
    (exStore.Sublist exStore ∧ exStore.length ≤ 5) :=
  ⟨by decide, by decide,
    C4_results_at_most_k_in_store_order exIndex exMapping exStore [0] 5 exStore
      (by decide) (by decide)⟩

/-! ### C9: partial-failure semantics of the sync pass -/

theorem dictInsert_self_mem (m : List (Nat × PyVal)) (k : Nat) (v : PyVal) :
    (k, v) ∈ dictInsert m k v := by
  unfold dictInsert
  by_cases h : m.any (fun p => p.1 = k)
  · simp only [if_pos h]
    obtain ⟨p, hp, hpk⟩ := List.any_eq_true.mp h
    refine List.mem_map.mpr ⟨p, hp, ?_⟩
    simp only [decide_eq_true_eq] at hpk
    simp [hpk]
  · simp [if_neg h]

theorem dictInsert_mem_of_ne (m : List (Nat × PyVal)) (k : Nat) (v : PyVal)
    (q : Nat × PyVal) (hq : q ∈ m) (hne : q.1 ≠ k) : q ∈ dictInsert m k v := by
  unfold dictInsert
  by_cases h : m.any (fun p => p.1 = k)
  · simp only [if_pos h]
    refine List.mem_map.mpr ⟨q, hq, ?_⟩
    simp [hne]
  · simp only [if_neg h]
    exact List.mem_append_left _ hq

theorem syncStep_preserves (embed : String → Option Vec) (st : SyncState) (c : ChunkRow)
    {p : Nat} {v : Vec} {x : PyVal}
    (hp : p < st.index.length) (hv : st.index[p]? = some v) (hm : (p, x) ∈ st.mapping) :
    p < (syncStep embed st c).index.length ∧ (syncStep embed st c).index[p]? = some v ∧
      (p, x) ∈ (syncStep embed st c).mapping := by
  unfold syncStep
  cases he : embed c.text with
  | none => exact ⟨hp, hv, hm⟩
  | some w =>
    simp only []
    refine ⟨?_, ?_, ?_⟩
    · simp only [List.length_append, List.length_cons, List.length_nil]
      omega
    · rw [List.getElem?_append_left hp]
      exact hv
    · refine dictInsert_mem_of_ne _ _ _ _ hm ?_
      simp only [List.length_append, List.length_cons, List.length_nil]
      omega

theorem foldl_syncStep_preserves (embed : String → Option Vec) (l : List ChunkRow)
    (st : SyncState) {p : Nat} {v : Vec} {x : PyVal}
    (hp : p < st.index.length) (hv : st.index[p]? = some v) (hm : (p, x) ∈ st.mapping) :
    p < (l.foldl (syncStep embed) st).index.length ∧
      (l.foldl (syncStep embed) st).index[p]? = some v ∧
      (p, x) ∈ (l.foldl (syncStep embed) st).mapping := by
  induction l generalizing st with
  | nil => exact ⟨hp, hv, hm⟩
  | cons c l ih =>
    obtain ⟨h1, h2, h3⟩ := syncStep_preserves embed st c hp hv hm
    exact ih (syncStep embed st c) h1 h2 h3

theorem foldl_syncStep_length (embed : String → Option Vec) (l : List ChunkRow)
    (st : SyncState) :
    (l.foldl (syncStep embed) st).index.length
      = st.index.length + l.countP (fun c => (embed c.text).isSome) := by
  induction l generalizing st with
  | nil => simp
  | cons c l ih =>
    simp only [List.foldl_cons, List.countP_cons]
    rw [ih]
    cases he : embed c.text with
    | none => simp [syncStep, he]
    | some w =>
      simp only [syncStep, he, List.length_append, List.length_cons, List.length_nil,
        Option.isSome_some, if_true]
      omega

theorem foldl_syncStep_success_recorded (embed : String → Option Vec) (l : List ChunkRow)
    (st : SyncState) (c : ChunkRow) (v : Vec) (hc : c ∈ l) (hv : embed c.text = some v) :
    ∃ p : Nat, (l.foldl (syncStep embed) st).index[p]? = some v ∧
      (p, PyVal.int c.id) ∈ (l.foldl (syncStep embed) st).mapping := by
  induction l generalizing st with
  | nil => cases hc
  | cons cHead l ih =>
    rcases List.mem_cons.mp hc with hceq | hmem
    · subst hceq
      have hstep : syncStep embed st c =
          ⟨st.index ++ [v],
            dictInsert st.mapping ((st.index ++ [v]).length - 1) (PyVal.int c.id)⟩ := by
        simp [syncStep, hv]
      have hkey : (st.index ++ [v]).length - 1 = st.index.length := by simp
      have h1 : (syncStep embed st c).index[st.index.length]? = some v := by
        rw [hstep]
        exact List.getElem?_concat_length st.index v
      have h2 : (st.index.length, PyVal.int c.id) ∈ (syncStep embed st c).mapping := by
        rw [hstep, hkey]
        exact dictInsert_self_mem st.mapping st.index.length (PyVal.int c.id)
      have hp : st.index.length < (syncStep embed st c).index.length := by
        rw [hstep]
        simp
      have hrest := foldl_syncStep_preserves embed l (syncStep embed st c) hp h1 h2
      exact ⟨st.index.length, hrest.2.1, hrest.2.2⟩
    · exact ih (syncStep embed st cHead) hmem

/-- C9: an embedding failure for one chunk does not abort the sync pass.
The `try/except/continue` of `embed_chunks.py` lines 113-120 leaves the
state untouched for a failing chunk, so the pass appends exactly one vector
per successful embedding, and every chunk of the pass whose embedding call
succeeds ends up with its vector present in the final index at some position
`p` and the mapping entry `(p, chunk_id)` recorded. -/
theorem C9_embedding_failure_skips_only_that_chunk (embed : String → Option Vec)
    (store : List ChunkRow) (st : SyncState) (c : ChunkRow) (v : Vec)
    (hc : c ∈ unembeddedChunks store st.mapping) (hv : embed c.text = some v) :
    (∃ p : Nat, (syncPass embed store st).index[p]? = some v ∧
        (p, PyVal.int c.id) ∈ (syncPass embed store st).mapping) ∧
    (syncPass embed store st).index.length
      = st.index.length
        + (unembeddedChunks store st.mapping).countP (fun c => (embed c.text).isSome) :=
  ⟨foldl_syncStep_success_recorded embed (unembeddedChunks store st.mapping) st c v hc hv,
   foldl_syncStep_length embed (unembeddedChunks store st.mapping) st⟩

/-- C9 witness: with a store of two chunks where embedding fails on the
first chunk's text and succeeds on the second's, the pass still records the
second chunk's vector and mapping entry, and grows the index by exactly the
one success. -/
theorem C9_embedding_failure_skips_only_that_chunk_witness :
    (⟨2, "b"⟩ : ChunkRow) ∈
      unembeddedChunks [(⟨1, "a"⟩ : ChunkRow), ⟨2, "b"⟩] (⟨[], []⟩ : SyncState).mapping ∧
    (fun t => if t = "b" then some ([7] : Vec) else none) (⟨2, "b"⟩ : ChunkRow).text
      = some [7] ∧
    ((∃ p : Nat,
        (syncPass (fun t => if t = "b" then some ([7] : Vec) else none)
          [(⟨1, "a"⟩ : ChunkRow), ⟨2, "b"⟩] ⟨[], []⟩).index[p]? = some [7] ∧
        (p, PyVal.int (⟨2, "b"⟩ : ChunkRow).id) ∈
          (syncPass (fun t => if t = "b" then some ([7] : Vec) else none)
            [(⟨1, "a"⟩ : ChunkRow), ⟨2, "b"⟩] ⟨[], []⟩).mapping) ∧
      (syncPass (fun t => if t = "b" then some ([7] : Vec) else none)
          [(⟨1, "a"⟩ : ChunkRow), ⟨2, "b"⟩] ⟨[], []⟩).index.length
        = (⟨[], []⟩ : SyncState).index.length
          + (unembeddedChunks [(⟨1, "a"⟩ : ChunkRow), ⟨2, "b"⟩]
              (⟨[], []⟩ : SyncState).mapping).countP
              (fun c => ((fun t => if t = "b" then some ([7] : Vec) else none) c.text).isSome)) :=
  ⟨by decide, by decide,
    C9_embedding_failure_skips_only_that_chunk
      (fun t => if t = "b" then some ([7] : Vec) else none)
      [(⟨1, "a"⟩ : ChunkRow), ⟨2, "b"⟩] ⟨[], []⟩ ⟨2, "b"⟩ [7] (by decide) (by decide)⟩

/-! ### C5: word preservation of the chunker -/

theorem listChunkInduction (cs : Nat) (motive : List String → Prop)
    (h0 : motive [])
    (h1 : ∀ w ws, motive (ws.drop (cs - 1)) → motive (w :: ws)) :
    ∀ l, motive l := by
  have H : ∀ n l, List.length l ≤ n → motive l := by
    intro n
    induction n with
    | zero =>
      intro l hl
      cases l with
      | nil => exact h0
      | cons w ws => simp at hl
    | succ n ih =>
      intro l hl
      cases l with
      | nil => exact h0
      | cons w ws =>
        refine h1 w ws (ih _ ?_)
        simp only [List.length_cons] at hl
        simp only [List.length_drop]
        omega
  exact fun l => H l.length l le_rfl

theorem splitWsAux_words_good : ∀ (cs : List Char) (acc : List Char),
    (∀ ch ∈ acc, ch.isWhitespace = false) →
    ∀ w ∈ splitWsAux cs acc, w.data ≠ [] ∧ ∀ ch ∈ w.data, ch.isWhitespace = false := by
  intro cs
  induction cs with
  | nil =>
    intro acc hacc w hw
    simp only [splitWsAux] at hw
    by_cases h : acc = []
    · simp [h] at hw
    · rw [if_neg h] at hw
      simp only [List.mem_singleton] at hw
      subst hw
      have hd : (String.mk acc.reverse).data = acc.reverse := rfl
      constructor
      · rw [hd]
        simpa using h
      · intro ch hch
        rw [hd] at hch
        exact hacc ch (List.mem_reverse.mp hch)
  | cons c cs ih =>
    intro acc hacc w hw
    simp only [splitWsAux] at hw
    by_cases hws : c.isWhitespace = true
    · rw [if_pos hws] at hw
      by_cases h : acc = []
      · rw [if_pos h] at hw
        exact ih [] (by simp) w hw
      · rw [if_neg h] at hw
        rcases List.mem_cons.mp hw with hweq | hw'
        · subst hweq
          have hd : (String.mk acc.reverse).data = acc.reverse := rfl
          constructor
          · rw [hd]
            simpa using h
          · intro ch hch
            rw [hd] at hch
            exact hacc ch (List.mem_reverse.mp hch)
        · exact ih [] (by simp) w hw'
    · rw [if_neg hws] at hw
      refine ih (c :: acc) ?_ w hw
      intro ch hch
      rcases List.mem_cons.mp hch with hcheq | h2
      · subst hcheq
        exact Bool.eq_false_iff.mpr hws
      · exact hacc ch h2

theorem pySplit_words_good (s : String) :
    ∀ w ∈ pySplit s, w.data ≠ [] ∧ ∀ ch ∈ w.data, ch.isWhitespace = false :=
  splitWsAux_words_good s.data [] (by simp)

theorem splitWsAux_append_nonws (w : List Char) (cs : List Char) (acc : List Char)
    (hw : ∀ ch ∈ w, ch.isWhitespace = false) :
    splitWsAux (w ++ cs) acc = splitWsAux cs (w.reverse ++ acc) := by
  induction w generalizing acc with
  | nil => simp
  | cons c w ih =>
    have hc : c.isWhitespace = false := hw c (by simp)
    simp only [List.cons_append, splitWsAux, hc, Bool.false_eq_true, if_false]
    show splitWsAux (w ++ cs) (c :: acc) = splitWsAux cs ((c :: w).reverse ++ acc)
    rw [ih (c :: acc) (fun ch h => hw ch (by simp [h]))]
    simp [List.append_assoc]

theorem strData_append (a b : String) : (a ++ b).data = a.data ++ b.data := rfl

theorem pySplit_pyJoin (ws : List String) (hne : ws ≠ [])
    (hgood : ∀ w ∈ ws, w.data ≠ [] ∧ ∀ ch ∈ w.data, ch.isWhitespace = false) :
    pySplit (pyJoin " " ws) = ws := by
  induction ws with
  | nil => exact absurd rfl hne
  | cons w ws ih =>
    obtain ⟨hd, hchars⟩ := hgood w (by simp)
    cases ws with
    | nil =>
      show splitWsAux (pyJoin " " [w]).data [] = [w]
      have h0 : pyJoin " " [w] = w := rfl
      rw [h0]
      have h1 : splitWsAux (w.data ++ []) [] = splitWsAux [] (w.data.reverse ++ []) :=
        splitWsAux_append_nonws w.data [] [] hchars
      simp only [List.append_nil] at h1
      rw [h1]
      simp only [splitWsAux]
      rw [if_neg (by simpa using hd)]
      simp [List.reverse_reverse]
    | cons v t =>
      have h0 : pyJoin " " (w :: v :: t) = w ++ " " ++ pyJoin " " (v :: t) := rfl
      have hsp : (" " : String).data = [' '] := rfl
      have hdata : (w ++ " " ++ pyJoin " " (v :: t)).data
          = w.data ++ ' ' :: (pyJoin " " (v :: t)).data := by
        rw [strData_append, strData_append, hsp]
        simp
      show splitWsAux (pyJoin " " (w :: v :: t)).data [] = w :: v :: t
      rw [h0, hdata]
      rw [splitWsAux_append_nonws w.data _ [] hchars]
      simp only [List.append_nil]
      have hspace : (' ' : Char).isWhitespace = true := rfl
      simp only [splitWsAux, hspace, if_true]
      rw [if_neg (by simpa using hd)]
      rw [List.reverse_reverse]
      have hrec : splitWsAux (pyJoin " " (v :: t)).data [] = v :: t :=
        ih (by simp) (fun x hx => hgood x (by simp [hx]))
      rw [hrec]

theorem chunkLoop_eq_map_specWindows (cs : Nat) :
    ∀ l : List String, chunkLoop cs l = (specWindows cs l).map (pyJoin " ") := by
  refine listChunkInduction cs _ ?_ ?_
  · simp [chunkLoop, specWindows]
  · intro w ws ih
    simp only [chunkLoop, specWindows, List.map_cons]
    rw [ih]

theorem specWindows_flatten (cs : Nat) :
    ∀ l : List String, (specWindows cs l).flatten = l := by
  refine listChunkInduction cs _ ?_ ?_
  · simp [specWindows]
  · intro w ws ih
    simp only [specWindows, List.flatten_cons]
    rw [ih]
    simp [List.take_append_drop]

theorem specWindows_mem (cs : Nat) :
    ∀ l win, win ∈ specWindows cs l → win ≠ [] ∧ ∀ w ∈ win, w ∈ l := by
  refine listChunkInduction cs (fun l => ∀ win, win ∈ specWindows cs l → _) ?_ ?_
  · intro win hwin
    simp [specWindows] at hwin
  · intro w ws ih win hwin
    simp only [specWindows, List.mem_cons] at hwin
    rcases hwin with hweq | hrec
    · subst hweq
      refine ⟨by simp, ?_⟩
      intro x hx
      rcases List.mem_cons.mp hx with hxeq | hx2
      · simp [hxeq]
      · exact List.mem_cons_of_mem w (List.take_subset _ _ hx2)
    · obtain ⟨h1, h2⟩ := ih win hrec
      exact ⟨h1, fun x hx => List.mem_cons_of_mem w (List.drop_subset _ _ (h2 x hx))⟩

theorem specWindows_map_length (cs : Nat) (hcs : 1 ≤ cs) :
    ∀ l : List String, (specWindows cs l).map List.length = sizesList cs l.length := by
  refine listChunkInduction cs _ ?_ ?_
  · simp [specWindows, sizesList]
  · intro w ws ih
    simp only [specWindows, List.map_cons, List.length_cons, List.length_take]
    rw [sizesList, if_neg (by omega)]
    have hlen : (ws.drop (cs - 1)).length = ws.length + 1 - 1 - (cs - 1) := by
      simp only [List.length_drop]
      omega
    rw [← hlen, ih]
    congr 1
    omega

/-- C5: for a text with more than `max_single` words and `chunk_size ≥ 1`
(the source always passes 800), `split_into_chunks` partitions the word
sequence into consecutive `chunk_size`-word windows (last window possibly
shorter), each rejoined with single spaces (first conjunct, against the
spec-side `specWindows`); concatenating the word sequences of the returned
chunks reproduces the original word sequence exactly — no word dropped,
duplicated or reordered (second conjunct); and any 1700-word text with
`max_single = 1000, chunk_size = 800` yields exactly the window sizes
800, 800, 100 (third conjunct). -/
theorem C5_chunker_partitions_words (text : String) (max_single chunk_size : Nat)
    (hcs : 1 ≤ chunk_size) (hbig : max_single < (pySplit text).length) :
    split_into_chunks text max_single chunk_size
        = (specWindows chunk_size (pySplit text)).map (pyJoin " ") ∧
    ((split_into_chunks text max_single chunk_size).map pySplit).flatten = pySplit text ∧
    ((pySplit text).length = 1700 →
      (split_into_chunks text 1000 800).map (fun c => (pySplit c).length)
        = [800, 800, 100]) := by
  have hwin_id : ∀ (cs : Nat), ∀ win ∈ specWindows cs (pySplit text),
      pySplit (pyJoin " " win) = win := by
    intro cs win hwin
    obtain ⟨hne, hsub⟩ := specWindows_mem cs (pySplit text) win hwin
    exact pySplit_pyJoin win hne (fun x hx => pySplit_words_good text x (hsub x hx))
  have hsplit : split_into_chunks text max_single chunk_size
      = chunkLoop chunk_size (pySplit text) := by
    simp only [split_into_chunks]
    rw [if_neg (by omega)]
  have hconj1 : split_into_chunks text max_single chunk_size
      = (specWindows chunk_size (pySplit text)).map (pyJoin " ") := by
    rw [hsplit, chunkLoop_eq_map_specWindows]
  refine ⟨hconj1, ?_, ?_⟩
  · rw [hconj1, List.map_map]
    have hmm : (specWindows chunk_size (pySplit text)).map (pySplit ∘ pyJoin " ")
        = (specWindows chunk_size (pySplit text)).map id :=
      List.map_congr_left (fun win hwin => by
        simpa [Function.comp] using hwin_id chunk_size win hwin)
    rw [hmm, List.map_id, specWindows_flatten]
  · intro h17
    have hsplit2 : split_into_chunks text 1000 800 = chunkLoop 800 (pySplit text) := by
      simp only [split_into_chunks]
      rw [if_neg (by omega)]
    rw [hsplit2, chunkLoop_eq_map_specWindows, List.map_map]
    have hmm2 : (specWindows 800 (pySplit text)).map
          ((fun c => (pySplit c).length) ∘ pyJoin " ")
        = (specWindows 800 (pySplit text)).map List.length :=
      List.map_congr_left (fun win hwin => by
        simp [Function.comp, hwin_id 800 win hwin])
    rw [hmm2, specWindows_map_length 800 (by omega), h17]
    rw [sizesList]
    norm_num
    rw [sizesList]
    norm_num
    rw [sizesList]
    norm_num
    rw [sizesList]
    norm_num

/-- C5 witness: the 3-word text "a b c" with `max_single = 2, chunk_size = 2`
exceeds the threshold and is chunked into windows. -/
theorem C5_chunker_partitions_words_witness :
    1 ≤ 2 ∧ 2 < (pySplit "a b c").length ∧
    (split_into_chunks "a b c" 2 2 = (specWindows 2 (pySplit "a b c")).map (pyJoin " ") ∧
     ((split_into_chunks "a b c" 2 2).map pySplit).flatten = pySplit "a b c" ∧
     ((pySplit "a b c").length = 1700 →
       (split_into_chunks "a b c" 1000 800).map (fun c => (pySplit c).length)
         = [800, 800, 100])) :=
  ⟨by decide, by decide, C5_chunker_partitions_words "a b c" 2 2 (by decide) (by decide)⟩

/-! ### C8: chapter reassembly -/

theorem insertSorted_perm {α : Type} (key : α → Int) (x : α) (l : List α) :
    (insertSorted key x l).Perm (x :: l) := by
  induction l with
  | nil => exact List.Perm.refl _
  | cons y ys ih =>
    simp only [insertSorted]
    by_cases h : key y < key x
    · rw [if_pos h]
      exact (ih.cons y).trans (List.Perm.swap x y ys)
    · rw [if_neg h]

theorem sortByKey_perm {α : Type} (key : α → Int) (l : List α) :
    (sortByKey key l).Perm l := by
  induction l with
  | nil => exact List.Perm.refl _
  | cons x xs ih =>
    simp only [sortByKey]
    exact (insertSorted_perm key x (sortByKey key xs)).trans (ih.cons x)

theorem mem_insertSorted {α : Type} (key : α → Int) (x z : α) (l : List α) :
    z ∈ insertSorted key x l ↔ z = x ∨ z ∈ l :=
  by simpa using (insertSorted_perm key x l).mem_iff

theorem insertSorted_pairwise {α : Type} (key : α → Int) (x : α) (l : List α)
    (hl : l.Pairwise (fun a b => key a ≤ key b)) :
    (insertSorted key x l).Pairwise (fun a b => key a ≤ key b) := by
  induction l with
  | nil => simp [insertSorted]
  | cons y ys ih =>
    simp only [insertSorted]
    obtain ⟨hy, hys⟩ := List.pairwise_cons.mp hl
    by_cases h : key y < key x
    · rw [if_pos h]
      refine List.pairwise_cons.mpr ⟨?_, ih hys⟩
      intro z hz
      rcases (mem_insertSorted key x z ys).mp hz with hzx | hzm
      · subst hzx
        exact le_of_lt h
      · exact hy z hzm
    · rw [if_neg h]
      refine List.pairwise_cons.mpr ⟨?_, hl⟩
      intro z hz
      rcases List.mem_cons.mp hz with hzy | hzm
      · subst hzy
        omega
      · have := hy z hzm
        omega

theorem sortByKey_pairwise {α : Type} (key : α → Int) (l : List α) :
    (sortByKey key l).Pairwise (fun a b => key a ≤ key b) := by
  induction l with
  | nil => simp [sortByKey]
  | cons x xs ih => exact insertSorted_pairwise key x (sortByKey key xs) ih

theorem mem_dedupFirst (l : List (String × String)) (k : String × String) :
    k ∈ dedupFirst l ↔ k ∈ l := by
  have H : ∀ n (l : List (String × String)), l.length ≤ n →
      ∀ k : String × String, (k ∈ dedupFirst l ↔ k ∈ l) := by
    intro n
    induction n with
    | zero =>
      intro l hl k
      cases l with
      | nil => simp [dedupFirst]
      | cons x xs => simp at hl
    | succ n ih =>
      intro l hl k
      cases l with
      | nil => simp [dedupFirst]
      | cons x xs =>
        simp only [dedupFirst, List.mem_cons]
        have hlen : (xs.filter (fun y => !(decide (y = x)))).length ≤ n := by
          have h1 := List.length_filter_le (fun y => !(decide (y = x))) xs
          simp only [List.length_cons] at hl
          omega
        rw [ih _ hlen k]
        constructor
        · rintro (hkx | hk)
          · exact Or.inl hkx
          · exact Or.inr (List.mem_filter.mp hk).1
        · rintro (hkx | hk)
          · exact Or.inl hkx
          · by_cases hkx2 : k = x
            · exact Or.inl hkx2
            · exact Or.inr (List.mem_filter.mpr ⟨hk, by simp [hkx2]⟩)
  exact H l.length l le_rfl k

theorem dedupFirst_append_singleton (l : List (String × String)) (k : String × String) :
    dedupFirst (l ++ [k]) = if k ∈ l then dedupFirst l else dedupFirst l ++ [k] := by
  have H : ∀ n (l : List (String × String)), l.length ≤ n →
      dedupFirst (l ++ [k]) = if k ∈ l then dedupFirst l else dedupFirst l ++ [k] := by
    intro n
    induction n with
    | zero =>
      intro l hl
      cases l with
      | nil => simp [dedupFirst]
      | cons x xs => simp at hl
    | succ n ih =>
      intro l hl
      cases l with
      | nil => simp [dedupFirst]
      | cons x xs =>
        simp only [List.cons_append, dedupFirst, List.filter_append]
        by_cases hkx : k = x
        · have hfk : [k].filter (fun y => !(decide (y = x))) = [] := by simp [hkx]
          rw [hfk, List.append_nil]
          rw [if_pos (by simp [hkx])]
        · have hfk : [k].filter (fun y => !(decide (y = x))) = [k] := by simp [hkx]
          rw [hfk]
          have hlen : (xs.filter (fun y => !(decide (y = x)))).length ≤ n := by
            have h1 := List.length_filter_le (fun y => !(decide (y = x))) xs
            simp only [List.length_cons] at hl
            omega
          rw [ih _ hlen]
          have hmemiff : k ∈ xs.filter (fun y => !(decide (y = x))) ↔ k ∈ xs := by
            constructor
            · intro h
              exact (List.mem_filter.mp h).1
            · intro h
              exact List.mem_filter.mpr ⟨h, by simp [hkx]⟩
          by_cases hkxs : k ∈ xs
          · rw [if_pos (hmemiff.mpr hkxs), if_pos (by simp [hkxs])]
          · rw [if_neg (fun hc => hkxs (hmemiff.mp hc)),
              if_neg (by simp [hkx, hkxs])]
  exact H l.length l le_rfl

theorem entriesFor_append_singleton (chunks : List DbRow) (r : DbRow) (k : String × String) :
    entriesFor (chunks ++ [r]) k
      = entriesFor chunks k
        ++ (if chapterKey r = k then [(r.local_index, r.text)] else []) := by
  unfold entriesFor
  rw [List.filter_append, List.map_append]
  congr 1
  by_cases h : chapterKey r = k <;> simp [h]

theorem entriesFor_eq_nil (chunks : List DbRow) (k : String × String)
    (h : k ∉ chunks.map chapterKey) : entriesFor chunks k = [] := by
  unfold entriesFor
  have hf : chunks.filter (fun r => decide (chapterKey r = k)) = [] := by
    refine List.filter_eq_nil_iff.mpr ?_
    intro r hr
    simp only [decide_eq_true_eq]
    intro he
    exact h (List.mem_map.mpr ⟨r, hr, he⟩)
  simp [hf]

/-- The spec-side chapter map: one entry per distinct chapter key of the
fetched rows in first-occurrence order, holding that chapter's
`(local_index, text)` pairs in fetch order. -/
def chapterMapSpec (chunks : List DbRow) :
    List ((String × String) × List (Int × String)) :=
  (dedupFirst (chunks.map chapterKey)).map (fun k => (k, entriesFor chunks k))

theorem chapterMapSpec_append (chunks : List DbRow) (r : DbRow) :
    chapterMapSpec (chunks ++ [r])
      = addToChapterMap (chapterMapSpec chunks) (chapterKey r)
          (r.local_index, r.text) := by
  unfold chapterMapSpec addToChapterMap
  rw [List.map_append]
  simp only [List.map_cons, List.map_nil]
  rw [dedupFirst_append_singleton]
  by_cases hmem : chapterKey r ∈ chunks.map chapterKey
  · rw [if_pos hmem]
    have hany : ((dedupFirst (chunks.map chapterKey)).map
        (fun k => (k, entriesFor chunks k))).any (fun p => p.1 = chapterKey r) = true := by
      refine List.any_eq_true.mpr
        ⟨(chapterKey r, entriesFor chunks (chapterKey r)),
          List.mem_map.mpr ⟨chapterKey r, (mem_dedupFirst _ _).mpr hmem, rfl⟩, by simp⟩
    rw [if_pos hany, List.map_map]
    apply List.map_congr_left
    intro k hk
    simp only [Function.comp]
    by_cases hkr : k = chapterKey r
    · rw [entriesFor_append_singleton, if_pos hkr.symm, if_pos hkr]
    · rw [entriesFor_append_singleton, if_neg (fun h => hkr h.symm), if_neg hkr]
      simp
  · rw [if_neg hmem]
    have hnotany : ¬ ((dedupFirst (chunks.map chapterKey)).map
        (fun k => (k, entriesFor chunks k))).any (fun p => p.1 = chapterKey r) = true := by
      intro hany
      obtain ⟨p, hp, hpk⟩ := List.any_eq_true.mp hany
      obtain ⟨k, hk, hkp⟩ := List.mem_map.mp hp
      rw [← hkp] at hpk
      simp only [decide_eq_true_eq] at hpk
      exact hmem (hpk ▸ (mem_dedupFirst _ _).mp hk)
    rw [if_neg hnotany, List.map_append]
    congr 1
    · apply List.map_congr_left
      intro k hk
      have hkne : chapterKey r ≠ k := by
        intro he
        exact hmem (he ▸ (mem_dedupFirst _ _).mp hk)
      rw [entriesFor_append_singleton, if_neg hkne]
      simp
    · simp only [List.map_cons, List.map_nil]
      rw [entriesFor_append_singleton, if_pos rfl, entriesFor_eq_nil chunks _ hmem]
      simp

theorem buildChapterMap_eq_spec (chunks : List DbRow) :
    buildChapterMap chunks = chapterMapSpec chunks := by
  induction chunks using List.reverseRecOn with
  | nil => simp [buildChapterMap, chapterMapSpec, dedupFirst]
  | append_singleton chunks r ih =>
    unfold buildChapterMap
    rw [List.foldl_append]
    simp only [List.foldl_cons, List.foldl_nil]
    rw [chapterMapSpec_append]
    unfold buildChapterMap at ih
    rw [ih]

/-- C8: `merge_chunks_by_chapter` returns exactly one `MergedChapter` per
distinct `(book_title, chapter_title)` pair occurring among the fetched
chunks, in first-occurrence (dict-insertion) order, whose text is the
single-space join of that chapter's chunk texts sorted by ascending
`local_index` — the spec-side `mergedChaptersSpec` (first conjunct).  The
remaining conjuncts justify reading `sortByKey` as "sorted by ascending
`local_index`": on any entry list it returns a permutation whose keys are
pairwise non-decreasing (Python's stable `sorted`). -/
theorem C8_merge_one_chapter_per_distinct_pair (chunks : List DbRow) :
    mergeChunksByChapter chunks = mergedChaptersSpec chunks ∧
    (∀ es : List (Int × String),
      (sortByKey (fun q => q.1) es).Perm es ∧
      (sortByKey (fun q => q.1) es).Pairwise (fun a b => a.1 ≤ b.1)) := by
  constructor
  · unfold mergeChunksByChapter mergedChaptersSpec
    rw [buildChapterMap_eq_spec]
    unfold chapterMapSpec
    rw [List.map_map]
    rfl
  · intro es
    exact ⟨sortByKey_perm _ es, sortByKey_pairwise _ es⟩
